import Mathlib

/-!
Verification of the crossword CSP solver (`generate.py`).

The solver's data model (`crossword.py`: classes `Variable` and `Crossword`)
is modelled from the specification, since that file is not part of the
sources; every operation of the solving pipeline
(`enforce_node_consistency`, `revise`, `ac3`, `assignment_complete`,
`consistent`, `order_domain_values`, `select_unassigned_variable`,
`backtrack`, `solve`) is translated directly from `generate.py`.

Words are lists of characters.  Python sets are embedded as lists: the list
order stands for the (incidental) iteration order of the set, and the
mathematical content of a set is its list of members.  The domain store
(`self.domains`, a dict keyed by the puzzle's variables) is embedded as a
total function from variables to word lists; only its values at the
puzzle's variables are ever consulted.  Assignments (Python dicts built by
inserting fresh keys) are embedded as association lists in insertion order.
-/

namespace CrosswordCSP

/-- Direction of a slot (`Variable.ACROSS` / `Variable.DOWN`). -/
inductive Direction where
  | across : Direction
  | down : Direction
deriving DecidableEq, Repr

/-- Modelled from the spec: a `Slot` (class `Variable` of `crossword.py`):
start row, start column, direction and length; two slots are equal iff all
four attributes match. -/
structure Variable where
  i : Nat
  j : Nat
  direction : Direction
  length : Nat
deriving DecidableEq, Repr

/-- Words are strings over the puzzle's alphabet. -/
abbrev Word := List Char

/-- Modelled from the spec: the Puzzle Model (class `Crossword` of
`crossword.py`): the slot set (`vars`, standing for `self.variables`, with a fixed iteration order),
the dictionary (`words`) and the precomputed overlap relation
(`overlaps`), which for a pair of slots is either `none` or a pair of
local letter indices. -/
structure Crossword where
  vars : List Variable
  words : List Word
  overlaps : Variable → Variable → Option (Nat × Nat)

/-- Modelled from the spec: the neighbor relation — for a slot `x`, the
set of all other slots `y` with `overlap(x,y) ≠ none` (method
`Crossword.neighbors` of `crossword.py`). -/
def neighbors (c : Crossword) (x : Variable) : List Variable :=
  c.vars.filter (fun y => y ≠ x ∧ (c.overlaps x y).isSome)

/-- The Domain Store `self.domains`: current candidate words per slot. -/
abbrev Doms := Variable → List Word

/-- Initial domain store built in `CrosswordCreator.__init__`: every slot's
domain is a copy of the full dictionary. -/
def initialDoms (c : Crossword) : Doms := fun _ => c.words

/-- Pointwise update of the domain store at one slot
(`self.domains[x] = ...`). -/
def updateDoms (doms : Doms) (x : Variable) (d : List Word) : Doms :=
  fun v => if v = x then d else doms v

/-- Indexing `w[i]` into a word, totalised with a default character (the
source only ever indexes in bounds on well-formed puzzles). -/
def charAt (w : Word) (i : Nat) : Char := w.getD i 'A'

/-- Source `CrosswordCreator.enforce_node_consistency` (generate.py lines
96–107): from every slot's domain remove each word whose length differs
from the slot's length. -/
def enforce_node_consistency (c : Crossword) (doms : Doms) : Doms :=
  fun v =>
    if v ∈ c.vars then (doms v).filter (fun w => w.length == v.length)
    else doms v

/-- Support test of `revise`'s inner loop: a candidate `wx` for `x` is
supported if some word in `y`'s current domain matches it at the overlap
indices `(i, j)`. -/
def support (doms : Doms) (y : Variable) (i j : Nat) (wx : Word) : Bool :=
  (doms y).any (fun wy => charAt wx i == charAt wy j)

/-- Source `CrosswordCreator.revise` (generate.py lines 109–138): if
`overlap(x,y)` is `None` return `False` with the store unchanged;
otherwise remove from `x`'s domain every word with no support in `y`'s
domain, and return `True` iff something was removed. -/
def revise (c : Crossword) (doms : Doms) (x y : Variable) : Bool × Doms :=
  match c.overlaps x y with
  | none => (false, doms)
  | some (i, j) =>
    let newDom := (doms x).filter (support doms y i j)
    if newDom.length = (doms x).length then (false, doms)
    else (true, updateDoms doms x newDom)

theorem revise_none {c : Crossword} {doms : Doms} {x y : Variable}
    (ho : c.overlaps x y = none) : revise c doms x y = (false, doms) := by
  simp [revise, ho]

theorem revise_some {c : Crossword} {doms : Doms} {x y : Variable} {i j : Nat}
    (ho : c.overlaps x y = some (i, j)) :
    revise c doms x y =
      if ((doms x).filter (support doms y i j)).length = (doms x).length
      then (false, doms)
      else (true, updateDoms doms x ((doms x).filter (support doms y i j))) := by
  simp [revise, ho]

theorem revise_false {c : Crossword} {doms : Doms} {x y : Variable} {d : Doms}
    (h : revise c doms x y = (false, d)) :
    d = doms ∧ ∀ i j, c.overlaps x y = some (i, j) →
      ∀ wx ∈ doms x, support doms y i j wx := by
  rcases ho : c.overlaps x y with _ | ⟨i, j⟩
  · rw [revise_none ho] at h
    injection h with h1 h2
    subst h2
    exact ⟨rfl, fun i j hij => Option.noConfusion hij⟩
  · rw [revise_some ho] at h
    split at h
    case isTrue hlen =>
      injection h with h1 h2
      subst h2
      refine ⟨rfl, fun i' j' hij wx hwx => ?_⟩
      injection hij with hp
      injection hp with hi hj
      subst hi; subst hj
      exact List.filter_eq_self.mp
        (List.Sublist.eq_of_length (List.filter_sublist _) hlen) wx hwx
    case isFalse hlen =>
      injection h with h1 h2
      exact Bool.noConfusion h1

theorem revise_true {c : Crossword} {doms : Doms} {x y : Variable} {d : Doms}
    (h : revise c doms x y = (true, d)) :
    ∃ i j, c.overlaps x y = some (i, j) ∧
      d = updateDoms doms x ((doms x).filter (support doms y i j)) ∧
      ((doms x).filter (support doms y i j)).length < (doms x).length := by
  rcases ho : c.overlaps x y with _ | ⟨i, j⟩
  · rw [revise_none ho] at h
    injection h with h1 h2
    exact Bool.noConfusion h1
  · rw [revise_some ho] at h
    split at h
    case isTrue hlen =>
      injection h with h1 h2
      exact Bool.noConfusion h1
    case isFalse hlen =>
      injection h with h1 h2
      exact ⟨i, j, rfl, h2.symm,
        Nat.lt_of_le_of_ne (List.Sublist.length_le (List.filter_sublist _)) hlen⟩

theorem updateDoms_same {doms : Doms} {x : Variable} {d : List Word} :
    updateDoms doms x d x = d := by
  simp [updateDoms]

theorem updateDoms_other {doms : Doms} {x v : Variable} {d : List Word}
    (hv : v ≠ x) : updateDoms doms x d v = doms v := by
  simp [updateDoms, hv]

theorem revise_frame {c : Crossword} {doms : Doms} {x y : Variable}
    {b : Bool} {d : Doms} (h : revise c doms x y = (b, d)) :
    ∀ v, v ≠ x → d v = doms v := by
  intro v hv
  cases b with
  | false => rw [(revise_false h).1]
  | true =>
    obtain ⟨i, j, -, rfl, -⟩ := revise_true h
    exact updateDoms_other hv

theorem revise_subset {c : Crossword} {doms : Doms} {x y : Variable}
    {b : Bool} {d : Doms} (h : revise c doms x y = (b, d)) :
    ∀ v w, w ∈ d v → w ∈ doms v := by
  intro v w hw
  cases b with
  | false => rwa [(revise_false h).1] at hw
  | true =>
    obtain ⟨i, j, -, rfl, -⟩ := revise_true h
    by_cases hv : v = x
    · subst hv
      rw [updateDoms_same] at hw
      exact (List.mem_filter.mp hw).1
    · rwa [updateDoms_other hv] at hw

theorem revise_length_le {c : Crossword} {doms : Doms} {x y : Variable}
    {b : Bool} {d : Doms} (h : revise c doms x y = (b, d)) :
    ∀ v, (d v).length ≤ (doms v).length := by
  intro v
  cases b with
  | false => rw [(revise_false h).1]
  | true =>
    obtain ⟨i, j, -, rfl, hlt⟩ := revise_true h
    by_cases hv : v = x
    · subst hv
      rw [updateDoms_same]
      exact Nat.le_of_lt hlt
    · rw [updateDoms_other hv]

theorem mem_neighbors {c : Crossword} {x y : Variable} :
    y ∈ neighbors c x ↔ y ∈ c.vars ∧ y ≠ x ∧ (c.overlaps x y).isSome := by
  simp [neighbors]

/-- Sum of a `Nat`-valued function over a list (used only to justify
termination of the AC-3 work loop). -/
def natSum (f : α → Nat) : List α → Nat
  | [] => 0
  | a :: l => f a + natSum f l

theorem natSum_le {f g : α → Nat} : ∀ {l : List α}, (∀ a ∈ l, f a ≤ g a) →
    natSum f l ≤ natSum g l
  | [], _ => Nat.le_refl _
  | a :: l, h => by
    simp only [natSum]
    exact Nat.add_le_add (h a (List.mem_cons_self a l))
      (natSum_le fun b hb => h b (List.mem_cons_of_mem a hb))

theorem natSum_lt {f g : α → Nat} {x : α} : ∀ {l : List α}, x ∈ l →
    f x < g x → (∀ a ∈ l, f a ≤ g a) → natSum f l < natSum g l := by
  intro l
  induction l with
  | nil => intro h; cases h
  | cons a l ih =>
    intro hx hlt hle
    simp only [natSum]
    rcases List.mem_cons.mp hx with rfl | hx
    · exact Nat.add_lt_add_of_lt_of_le hlt
        (natSum_le fun b hb => hle b (List.mem_cons_of_mem x hb))
    · exact Nat.add_lt_add_of_le_of_lt (hle a (List.mem_cons_self a l))
        (ih hx hlt fun b hb => hle b (List.mem_cons_of_mem a hb))

theorem natSum_append (f : α → Nat) (l₁ l₂ : List α) :
    natSum f (l₁ ++ l₂) = natSum f l₁ + natSum f l₂ := by
  induction l₁ with
  | nil => simp [natSum]
  | cons a l ih =>
    show f a + natSum f (l ++ l₂) = f a + natSum f l + natSum f l₂
    rw [ih, Nat.add_assoc]

theorem natSum_congr {f g : α → Nat} : ∀ {l : List α}, (∀ a ∈ l, f a = g a) →
    natSum f l = natSum g l :=
  fun h => Nat.le_antisymm (natSum_le fun a ha => Nat.le_of_eq (h a ha))
    (natSum_le fun a ha => Nat.le_of_eq (h a ha).symm)

/-- Total size of the domains of the puzzle's slots. -/
def domsMeasure (c : Crossword) (doms : Doms) : Nat :=
  natSum (fun v => (doms v).length) c.vars

/-- Contribution of queued arcs whose first component is not one of the
puzzle's slots (zero whenever AC-3 is seeded from the constraint graph). -/
def queueMeasure (c : Crossword) (doms : Doms)
    (queue : List (Variable × Variable)) : Nat :=
  natSum (fun p => if p.1 ∈ c.vars then 0 else (doms p.1).length) queue

theorem natSum_eq_zero {f : α → Nat} : ∀ {l : List α}, (∀ a ∈ l, f a = 0) →
    natSum f l = 0
  | [], _ => rfl
  | a :: l, h => by
    simp only [natSum, h a (List.mem_cons_self a l),
      natSum_eq_zero fun b hb => h b (List.mem_cons_of_mem a hb)]

theorem queueMeasure_le_cons (c : Crossword) (doms : Doms)
    (p : Variable × Variable) (rest : List (Variable × Variable)) :
    queueMeasure c doms rest ≤ queueMeasure c doms (p :: rest) :=
  Nat.le_add_left _ _

theorem lexNat_of_le_of_lt {a₁ a₂ b₁ b₂ : Nat} (h1 : a₁ ≤ a₂) (h2 : b₁ < b₂) :
    Prod.Lex (· < ·) (· < ·) (a₁, b₁) (a₂, b₂) := by
  rcases Nat.eq_or_lt_of_le h1 with rfl | h
  · exact Prod.Lex.right _ h2
  · exact Prod.Lex.left _ _ h

theorem ac3_step_measure {c : Crossword} {doms doms' : Doms} {x y : Variable}
    (h : revise c doms x y = (true, doms'))
    (rest : List (Variable × Variable)) :
    domsMeasure c doms' + queueMeasure c doms'
      (rest ++ ((neighbors c x).filter (fun z => z ≠ y)).map (fun z => (z, x)))
    < domsMeasure c doms + queueMeasure c doms ((x, y) :: rest) := by
  obtain ⟨i, j, ho, hd, hflt⟩ := revise_true h
  have hdx : (doms' x).length < (doms x).length := by
    rw [hd, updateDoms_same]; exact hflt
  have hle : ∀ v, (doms' v).length ≤ (doms v).length := revise_length_le h
  have hframe : ∀ v, v ≠ x → doms' v = doms v := revise_frame h
  have hnew : natSum (fun p => if p.1 ∈ c.vars then 0 else (doms' p.1).length)
      (((neighbors c x).filter (fun z => z ≠ y)).map (fun z => (z, x))) = 0 := by
    apply natSum_eq_zero
    intro p hp
    obtain ⟨z, hz, rfl⟩ := List.mem_map.mp hp
    have hzn : z ∈ neighbors c x := (List.mem_filter.mp hz).1
    have : z ∈ c.vars := (mem_neighbors.mp hzn).1
    simp [this]
  have hq2 : queueMeasure c doms'
      (rest ++ ((neighbors c x).filter (fun z => z ≠ y)).map (fun z => (z, x)))
      ≤ queueMeasure c doms rest := by
    unfold queueMeasure
    rw [natSum_append, hnew, Nat.add_zero]
    apply natSum_le
    intro p _
    by_cases hpv : p.1 ∈ c.vars
    · simp [hpv]
    · simp only [if_neg hpv]
      exact hle p.1
  by_cases hx : x ∈ c.vars
  · have hdm : domsMeasure c doms' < domsMeasure c doms :=
      natSum_lt hx hdx fun v _ => hle v
    exact Nat.add_lt_add_of_lt_of_le hdm
      (hq2.trans (queueMeasure_le_cons c doms (x, y) rest))
  · have hdm : domsMeasure c doms' = domsMeasure c doms := by
      apply natSum_congr
      intro v hv
      rw [hframe v (fun hvx => hx (hvx ▸ hv))]
    have hcons : queueMeasure c doms ((x, y) :: rest)
        = (doms x).length + queueMeasure c doms rest := by
      simp only [queueMeasure, natSum, if_neg hx]
    rw [hdm, hcons]
    have hpos : 0 < (doms x).length := Nat.lt_of_le_of_lt (Nat.zero_le _) hdx
    calc domsMeasure c doms + queueMeasure c doms'
          (rest ++ ((neighbors c x).filter (fun z => z ≠ y)).map (fun z => (z, x)))
        ≤ domsMeasure c doms + queueMeasure c doms rest := Nat.add_le_add_left hq2 _
      _ < domsMeasure c doms + ((doms x).length + queueMeasure c doms rest) := by
          omega

/-- Source `CrosswordCreator.ac3`, the work-queue loop (generate.py lines
156–165): pop the front arc `(x,y)`; if `revise` narrowed `x`'s domain to
empty, return `False` at once; if it narrowed it to a non-empty set,
append an arc `(z,x)` for every neighbor `z` of `x` other than `y` and
continue; otherwise continue with the rest of the queue. -/
def ac3go (c : Crossword) (doms : Doms) (queue : List (Variable × Variable)) :
    Bool × Doms :=
  match queue with
  | [] => (true, doms)
  | (x, y) :: rest =>
    match h : revise c doms x y with
    | (false, _) => ac3go c doms rest
    | (true, doms') =>
      if (doms' x).length = 0 then (false, doms')
      else ac3go c doms'
        (rest ++ ((neighbors c x).filter (fun z => z ≠ y)).map (fun z => (z, x)))
termination_by (domsMeasure c doms + queueMeasure c doms queue, queue.length)
decreasing_by
  · apply lexNat_of_le_of_lt
    · exact Nat.add_le_add (Nat.le_refl _) (queueMeasure_le_cons c doms (x, y) rest)
    · simp
  · exact Prod.Lex.left _ _ (ac3_step_measure h rest)

theorem ac3go_nil (c : Crossword) (doms : Doms) :
    ac3go c doms [] = (true, doms) := by
  rw [ac3go]

theorem ac3go_cons_false {c : Crossword} {doms d : Doms} {x y : Variable}
    (rest : List (Variable × Variable)) (h : revise c doms x y = (false, d)) :
    ac3go c doms ((x, y) :: rest) = ac3go c doms rest := by
  rw [ac3go]
  split
  · rfl
  next doms' heq =>
    rw [h] at heq
    injection heq with h1 h2
    exact Bool.noConfusion h1

theorem ac3go_cons_empty {c : Crossword} {doms doms' : Doms} {x y : Variable}
    (rest : List (Variable × Variable)) (h : revise c doms x y = (true, doms'))
    (hlen : (doms' x).length = 0) :
    ac3go c doms ((x, y) :: rest) = (false, doms') := by
  rw [ac3go]
  split
  next d heq =>
    rw [h] at heq
    injection heq with h1 h2
    exact Bool.noConfusion h1.symm
  next d heq =>
    rw [h] at heq
    injection heq with h1 h2
    subst h2
    rw [if_pos hlen]

theorem ac3go_cons_requeue {c : Crossword} {doms doms' : Doms} {x y : Variable}
    (rest : List (Variable × Variable)) (h : revise c doms x y = (true, doms'))
    (hlen : (doms' x).length ≠ 0) :
    ac3go c doms ((x, y) :: rest) = ac3go c doms'
      (rest ++ ((neighbors c x).filter (fun z => z ≠ y)).map (fun z => (z, x))) := by
  rw [ac3go]
  split
  next d heq =>
    rw [h] at heq
    injection heq with h1 h2
    exact Bool.noConfusion h1.symm
  next d heq =>
    rw [h] at heq
    injection heq with h1 h2
    subst h2
    rw [if_neg hlen]

/-- Arcs of the constraint graph used to seed AC-3 when `arcs is None`
(generate.py lines 150–154): every ordered pair `(x, y)` with `y` a
neighbor of `x`, in iteration order. -/
def allArcs (c : Crossword) : List (Variable × Variable) :=
  c.vars.flatMap (fun x => (neighbors c x).map (fun y => (x, y)))

/-- Source `CrosswordCreator.ac3` (generate.py lines 141–165): seed the
queue with the given arcs, or with all arcs of the constraint graph when
none are given, then run the work-queue loop. -/
def ac3 (c : Crossword) (doms : Doms)
    (arcs : Option (List (Variable × Variable))) : Bool × Doms :=
  ac3go c doms (match arcs with | some l => l | none => allArcs c)

/-- Assignments (`assignment`, a Python dict from slots to words) are
embedded as association lists in insertion order; the search only ever
inserts keys that are not yet present. -/
abbrev Assign := List (Variable × Word)

/-- Dictionary lookup `assignment[v]`. -/
def lookupA : Assign → Variable → Option Word
  | [], _ => none
  | (v, w) :: rest, u => if u = v then some w else lookupA rest u

/-- Membership test `v in assignment`. -/
def isAssigned (a : Assign) (v : Variable) : Bool := (lookupA a v).isSome

/-- Source `CrosswordCreator.assignment_complete` (generate.py lines
167–171): the assignment has as many entries as the puzzle has slots. -/
def assignment_complete (c : Crossword) (a : Assign) : Bool :=
  a.length == c.vars.length

/-- Inner test of `consistent`'s third loop, for one assigned slot `v`
carrying word `w` and one of its neighbors `nb`: if `nb` is assigned and
the overlap is not `None`, the overlap letters must agree
(`word[i] != assignment[neighbor][j]` triggers failure). -/
def overlapCheck (c : Crossword) (a : Assign) (v : Variable) (w : Word)
    (nb : Variable) : Bool :=
  match lookupA a nb with
  | none => true
  | some w2 =>
    match c.overlaps v nb with
    | none => true
    | some (i, j) => charAt w i == charAt w2 j

/-- Source `CrosswordCreator.consistent` (generate.py lines 174–202):
every assigned word has its slot's length, the assigned words are
pairwise distinct (`len(values) == len(set(values))`, embedded via
`dedup`), and assigned neighboring slots agree at their overlap
indices. -/
def consistent (c : Crossword) (a : Assign) : Bool :=
  a.all (fun p => p.2.length == p.1.length) &&
  ((a.map Prod.snd).dedup.length == (a.map Prod.snd).length) &&
  a.all (fun p => (neighbors c p.1).all (overlapCheck c a p.1 p.2))

/-- Inner `conflicts_count` of `CrosswordCreator.order_domain_values`
(generate.py lines 210–224): for each unassigned neighbor, count the
words of its domain that would disagree with `val` at the overlap. -/
def conflictsCount (c : Crossword) (doms : Doms) (a : Assign)
    (var : Variable) (val : Word) : Nat :=
  natSum (fun nb =>
    if isAssigned a nb then 0
    else match c.overlaps var nb with
      | none => 0
      | some (i, j) =>
        (doms nb).countP (fun nbVal => !(charAt val i == charAt nbVal j)))
    (neighbors c var)

/-- Stable insertion into a key-sorted list: the new element goes before
every element whose key is not smaller (Python `sorted` is stable, so an
element of the input list goes before later elements with equal keys). -/
def insertByKey (key : Word → Nat) (w : Word) : List Word → List Word
  | [] => [w]
  | v :: vs => if key v < key w then v :: insertByKey key w vs else w :: v :: vs

/-- Stable sort by a `Nat` key, the embedding of Python's stable
`sorted(..., key=...)`. -/
def sortByKey (key : Word → Nat) : List Word → List Word
  | [] => []
  | v :: vs => insertByKey key v (sortByKey key vs)

/-- Source `CrosswordCreator.order_domain_values` (generate.py lines
204–227): the slot's current domain, in iteration order, stably sorted by
ascending conflict count. -/
def order_domain_values (c : Crossword) (doms : Doms) (a : Assign)
    (var : Variable) : List Word :=
  sortByKey (conflictsCount c doms a var) (doms var)

/-- Strict comparison of the heuristic keys
`(len(self.domains[v]), -len(self.crossword.neighbors(v)))` used by
`select_unassigned_variable`: smaller domain first, then more neighbors
first. -/
def mrvLt (c : Crossword) (doms : Doms) (a b : Variable) : Bool :=
  (doms a).length < (doms b).length ||
  ((doms a).length == (doms b).length &&
    (neighbors c b).length < (neighbors c a).length)

/-- Python's `min` over a non-empty list: scan left to right, replacing
the current best exactly when the candidate compares strictly smaller, so
the first minimum in iteration order wins. -/
def pickMin (lt : Variable → Variable → Bool) : Variable → List Variable → Variable
  | best, [] => best
  | best, v :: vs => pickMin lt (bif lt v best then v else best) vs

/-- The list `[v for v in self.crossword.variables if v not in assignment]`,
in iteration order. -/
def unassignedList (c : Crossword) (a : Assign) : List Variable :=
  c.vars.filter (fun v => !(isAssigned a v))

/-- Source `CrosswordCreator.select_unassigned_variable` (generate.py
lines 230–243): minimum of the unassigned slots under the MRV/degree key.
Python's `min` raises on an empty sequence; that case is totalised as
`none` (it is never reached from `solve` on an incomplete assignment). -/
def select_unassigned_variable (c : Crossword) (doms : Doms) (a : Assign) :
    Option Variable :=
  match unassignedList c a with
  | [] => none
  | v :: vs => some (pickMin (mrvLt c doms) v vs)

/-- Source `CrosswordCreator.backtrack` (generate.py lines 246–272),
indexed by a fuel bounding the recursion depth: if the assignment is
complete return it; otherwise select an unassigned slot, try its values
in LCV order, extend by copy (`assignment.copy()` plus one fresh key),
keep only consistent extensions, recurse, and return the first success,
or `None` when every value fails.  In the source the recursion depth is
bounded by the number of unassigned slots, so `backtrack` below runs this
with fuel `len(variables) + 1`, which that bound never exhausts. -/
def backtrackFuel (c : Crossword) (doms : Doms) : Nat → Assign → Option Assign
  | 0, _ => none
  | fuel + 1, a =>
    if assignment_complete c a then some a
    else
      match select_unassigned_variable c doms a with
      | none => none
      | some var =>
        (order_domain_values c doms a var).findSome? (fun val =>
          let a2 := a ++ [(var, val)]
          if consistent c a2 then backtrackFuel c doms fuel a2 else none)

/-- Source `CrosswordCreator.backtrack`, at the depth bound that the
search never exhausts. -/
def backtrack (c : Crossword) (doms : Doms) (a : Assign) : Option Assign :=
  backtrackFuel c doms (c.vars.length + 1) a

/-- Source `CrosswordCreator.solve` (generate.py lines 88–94): enforce
node consistency on the initial domains, run AC-3 over all arcs — the
Boolean it returns is discarded — and start backtracking from the empty
assignment. -/
def solve (c : Crossword) : Option Assign :=
  backtrack c
    (ac3 c (enforce_node_consistency c (initialDoms c)) none).2 []

/-- Source `CrosswordCreator.solve`, instrumented with one observation:
the second component records whether control reaches the
`self.backtrack(dict())` call on line 94.  The source calls it
unconditionally — the value returned by `self.ac3()` is discarded — so
the flag is `true` on every input. -/
def solveTrace (c : Crossword) : Option Assign × Bool :=
  (backtrack c
    (ac3 c (enforce_node_consistency c (initialDoms c)) none).2 [], true)

theorem support_iff {doms : Doms} {y : Variable} {i j : Nat} {wx : Word} :
    support doms y i j wx = true ↔ ∃ wy ∈ doms y, charAt wx i = charAt wy j := by
  simp [support]

/-- Concrete slots and puzzles used by the witness theorems. -/
def slotAcross3 : Variable := ⟨0, 0, Direction.across, 3⟩

def slotAcross1 : Variable := ⟨0, 0, Direction.across, 1⟩

def slotDown2 : Variable := ⟨0, 0, Direction.down, 2⟩

/-- A puzzle with one slot of length 3 and dictionary {cat, dog}, listed
with `cat` first. -/
def cwSingle : Crossword :=
  ⟨[slotAcross3], ["cat".toList, "dog".toList], fun _ _ => none⟩

/-- The same puzzle as `cwSingle` with the dictionary listed in the other
iteration order. -/
def cwSingleSwap : Crossword :=
  ⟨[slotAcross3], ["dog".toList, "cat".toList], fun _ _ => none⟩

/-- Two crossing slots of lengths 1 and 2 overlapping at their first
letters, with a dictionary {a, b, cd} leaving the length-1 slot without
support: AC-3 empties its domain and reports failure. -/
def cwFail : Crossword :=
  ⟨[slotAcross1, slotDown2], ["a".toList, "b".toList, "cd".toList],
    fun u v =>
      if u = slotAcross1 ∧ v = slotDown2 then some (0, 0)
      else if u = slotDown2 ∧ v = slotAcross1 then some (0, 0)
      else none⟩

/-- C4: if `overlap(x,y)` is none, `revise(x,y)` returns `False` and
removes nothing; otherwise it removes from `x`'s domain exactly the
candidates with no supporting word in `y`'s domain, and returns `True`
iff at least one candidate was removed. -/
theorem revise_characterization (c : Crossword) (doms : Doms) (x y : Variable) :
    (c.overlaps x y = none → revise c doms x y = (false, doms)) ∧
    (∀ i j, c.overlaps x y = some (i, j) →
      (∀ w, w ∈ (revise c doms x y).2 x ↔
        w ∈ doms x ∧ ∃ wy ∈ doms y, charAt w i = charAt wy j) ∧
      ((revise c doms x y).1 = true ↔
        ∃ w, w ∈ doms x ∧ w ∉ (revise c doms x y).2 x)) := by
  constructor
  · exact revise_none
  · intro i j ho
    rw [revise_some ho]
    split
    case isTrue hlen =>
      have hall : ∀ w ∈ doms x, support doms y i j w :=
        List.filter_eq_self.mp
          (List.Sublist.eq_of_length (List.filter_sublist _) hlen)
      constructor
      · intro w
        simp only
        constructor
        · intro hw
          exact ⟨hw, support_iff.mp (hall w hw)⟩
        · exact fun hw => hw.1
      · simp only
        constructor
        · intro hfalse
          exact Bool.noConfusion hfalse
        · rintro ⟨w, hw, hnot⟩
          exact absurd hw hnot
    case isFalse hlen =>
      constructor
      · intro w
        simp only [updateDoms_same, List.mem_filter, support_iff]
      · simp only [updateDoms_same]
        constructor
        · intro _
          by_contra hno
          push_neg at hno
          apply hlen
          apply congrArg List.length
          apply List.filter_eq_self.mpr
          intro w hw
          exact (List.mem_filter.mp (hno w hw)).2
        · exact fun _ => trivial

/-- C10: `revise(x,y)` modifies at most `x`'s entry of the domain store:
every other slot's domain is unchanged. -/
theorem revise_frame_only_x (c : Crossword) (doms : Doms) (x y v : Variable)
    (hv : v ≠ x) : (revise c doms x y).2 v = doms v := by
  rcases hrev : revise c doms x y with ⟨b, d⟩
  exact revise_frame hrev v hv

theorem revise_frame_only_x_witness :
    slotDown2 ≠ slotAcross1 ∧
    (revise cwFail (initialDoms cwFail) slotAcross1 slotDown2).2 slotDown2
      = initialDoms cwFail slotDown2 :=
  ⟨by decide,
    revise_frame_only_x cwFail (initialDoms cwFail) slotAcross1 slotDown2
      slotDown2 (by decide)⟩

/-- The domain store of `cwFail` right after node-consistency enforcement. -/
def domsFailEx : Doms := enforce_node_consistency cwFail (initialDoms cwFail)

theorem revise_characterization_witness :
    cwFail.overlaps slotAcross1 slotDown2 = some (0, 0) ∧
    ((revise cwFail domsFailEx slotAcross1 slotDown2).1 = true ↔
      ∃ w, w ∈ domsFailEx slotAcross1 ∧
        w ∉ (revise cwFail domsFailEx slotAcross1 slotDown2).2 slotAcross1) :=
  ⟨by decide,
    ((revise_characterization cwFail domsFailEx slotAcross1 slotDown2).2
      0 0 (by decide)).2⟩

/-- The spec's Domain invariant: every word in a slot's domain has the
slot's length. -/
def lengthInv (c : Crossword) (doms : Doms) : Prop :=
  ∀ v ∈ c.vars, ∀ w ∈ doms v, w.length = v.length

theorem ac3go_subset {c : Crossword} (doms : Doms)
    (queue : List (Variable × Variable)) :
    ∀ v w, w ∈ (ac3go c doms queue).2 v → w ∈ doms v := by
  induction doms, queue using ac3go.induct c with
  | case1 doms => intro v w hw; rw [ac3go_nil] at hw; exact hw
  | case2 doms x y rest d h ih =>
    intro v w hw
    rw [ac3go_cons_false rest h] at hw
    exact ih v w hw
  | case3 doms x y rest doms' h hlen =>
    intro v w hw
    rw [ac3go_cons_empty rest h hlen] at hw
    exact revise_subset h v w hw
  | case4 doms x y rest doms' h hlen ih =>
    intro v w hw
    rw [ac3go_cons_requeue rest h hlen] at hw
    exact revise_subset h v w (ih v w hw)

theorem lengthInv_of_subset {c : Crossword} {d d' : Doms}
    (hsub : ∀ v w, w ∈ d' v → w ∈ d v) (h : lengthInv c d) : lengthInv c d' :=
  fun v hv w hw => h v hv w (hsub v w hw)

/-- C6: immediately after node-consistency enforcement every domain word
has its slot's length, and the invariant is preserved by `revise` and
`ac3`, which only remove words from domains and never add any (the
backtracking search never modifies the domain store at all — in the
embedding `backtrackFuel` only reads `doms`). -/
theorem node_consistency_invariant (c : Crossword) (doms : Doms) :
    lengthInv c (enforce_node_consistency c doms) ∧
    (∀ d x y v w, w ∈ (revise c d x y).2 v → w ∈ d v) ∧
    (∀ d arcs v w, w ∈ (ac3 c d arcs).2 v → w ∈ d v) ∧
    (∀ d x y, lengthInv c d → lengthInv c (revise c d x y).2) ∧
    (∀ d arcs, lengthInv c d → lengthInv c (ac3 c d arcs).2) := by
  have hrev : ∀ d x y v w, w ∈ (revise c d x y).2 v → w ∈ d v := by
    intro d x y v w hw
    rcases hr : revise c d x y with ⟨b, d2⟩
    rw [hr] at hw
    exact revise_subset hr v w hw
  have hac3 : ∀ d arcs v w, w ∈ (ac3 c d arcs).2 v → w ∈ d v := by
    intro d arcs v w hw
    exact ac3go_subset d _ v w hw
  refine ⟨?_, hrev, hac3, ?_, ?_⟩
  · intro v hv w hw
    rw [enforce_node_consistency, if_pos hv] at hw
    simpa using (List.mem_filter.mp hw).2
  · intro d x y h
    exact lengthInv_of_subset (hrev d x y) h
  · intro d arcs h
    exact lengthInv_of_subset (hac3 d arcs) h

theorem node_consistency_invariant_witness :
    lengthInv cwSingle (enforce_node_consistency cwSingle (initialDoms cwSingle)) ∧
    lengthInv cwFail domsFailEx ∧
    lengthInv cwFail (revise cwFail domsFailEx slotAcross1 slotDown2).2 :=
  ⟨(node_consistency_invariant cwSingle (initialDoms cwSingle)).1,
    (node_consistency_invariant cwFail (initialDoms cwFail)).1,
    (node_consistency_invariant cwFail (initialDoms cwFail)).2.2.2.1
      domsFailEx slotAcross1 slotDown2
      (node_consistency_invariant cwFail (initialDoms cwFail)).1⟩

/-- C7: the AC-3 loop pops arcs at the front of the queue (FIFO).  When
`revise` narrows `x`'s domain to empty, the loop returns `False` at once,
processing nothing further; when it narrows it to a non-empty set, an arc
`(z,x)` for every neighbor `z ≠ y` of `x` is appended at the back of the
queue; when nothing was removed, the store is unchanged and the loop
continues with the rest of the queue. -/
theorem ac3_queue_processing (c : Crossword) (doms : Doms) (x y : Variable)
    (rest : List (Variable × Variable)) :
    (∀ d, revise c doms x y = (true, d) → (d x).length = 0 →
      ac3go c doms ((x, y) :: rest) = (false, d)) ∧
    (∀ d, revise c doms x y = (true, d) → (d x).length ≠ 0 →
      ac3go c doms ((x, y) :: rest) = ac3go c d
        (rest ++ ((neighbors c x).filter (fun z => z ≠ y)).map (fun z => (z, x)))) ∧
    (∀ d, revise c doms x y = (false, d) →
      d = doms ∧ ac3go c doms ((x, y) :: rest) = ac3go c doms rest) :=
  ⟨fun _ h hlen => ac3go_cons_empty rest h hlen,
   fun _ h hlen => ac3go_cons_requeue rest h hlen,
   fun _ h => ⟨(revise_false h).1, ac3go_cons_false rest h⟩⟩

/-- The store produced by the revision that empties `slotAcross1`'s domain
in `cwFail`. -/
def reviseFailD : Doms := (revise cwFail domsFailEx slotAcross1 slotDown2).2

theorem ac3_queue_processing_witness :
    revise cwFail domsFailEx slotAcross1 slotDown2 = (true, reviseFailD) ∧
    (reviseFailD slotAcross1).length = 0 ∧
    ac3go cwFail domsFailEx [(slotAcross1, slotDown2)] = (false, reviseFailD) := by
  have hrev : revise cwFail domsFailEx slotAcross1 slotDown2 = (true, reviseFailD) :=
    Prod.ext (by decide) rfl
  have hlen : (reviseFailD slotAcross1).length = 0 := by decide
  exact ⟨hrev, hlen,
    (ac3_queue_processing cwFail domsFailEx slotAcross1 slotDown2 []).1
      reviseFailD hrev hlen⟩

/-- Reflexive companion of `mrvLt`: the MRV/degree key of `a` is at most
that of `b`. -/
def mrvLe (c : Crossword) (doms : Doms) (a b : Variable) : Prop :=
  (doms a).length < (doms b).length ∨
  ((doms a).length = (doms b).length ∧
    (neighbors c b).length ≤ (neighbors c a).length)

theorem mrvLe_refl (c : Crossword) (doms : Doms) (a : Variable) :
    mrvLe c doms a a :=
  Or.inr ⟨rfl, Nat.le_refl _⟩

theorem mrvLe_of_lt {c : Crossword} {doms : Doms} {a b : Variable}
    (h : mrvLt c doms a b = true) : mrvLe c doms a b := by
  simp only [mrvLt, Bool.or_eq_true, Bool.and_eq_true, decide_eq_true_eq,
    beq_iff_eq] at h
  rcases h with h | ⟨h1, h2⟩
  · exact Or.inl h
  · exact Or.inr ⟨h1, Nat.le_of_lt h2⟩

theorem mrvLe_of_not_lt {c : Crossword} {doms : Doms} {a b : Variable}
    (h : mrvLt c doms a b = false) : mrvLe c doms b a := by
  simp only [mrvLt, Bool.or_eq_false_iff, Bool.and_eq_false_iff,
    decide_eq_false_iff_not, beq_eq_false_iff_ne, ne_eq] at h
  rcases h with ⟨h1, h2⟩
  rcases Nat.lt_or_ge ((doms b).length) ((doms a).length) with hba | hba
  · exact Or.inl hba
  · have heq : (doms b).length = (doms a).length :=
      Nat.le_antisymm (Nat.le_of_not_lt h1) hba
    rcases h2 with h2 | h2
    · exact absurd heq.symm h2
    · exact Or.inr ⟨heq, Nat.le_of_not_lt h2⟩

theorem mrvLe_trans {c : Crossword} {doms : Doms} {a b d : Variable}
    (h1 : mrvLe c doms a b) (h2 : mrvLe c doms b d) : mrvLe c doms a d := by
  rcases h1 with h1 | ⟨h1, h1d⟩ <;> rcases h2 with h2 | ⟨h2, h2d⟩
  · exact Or.inl (Nat.lt_trans h1 h2)
  · exact Or.inl (h2 ▸ h1)
  · exact Or.inl (h1 ▸ h2)
  · exact Or.inr ⟨h1.trans h2, Nat.le_trans h2d h1d⟩

theorem pickMin_spec (c : Crossword) (doms : Doms) :
    ∀ (l : List Variable) (best : Variable),
      pickMin (mrvLt c doms) best l ∈ best :: l ∧
      mrvLe c doms (pickMin (mrvLt c doms) best l) best ∧
      ∀ u ∈ l, mrvLe c doms (pickMin (mrvLt c doms) best l) u := by
  intro l
  induction l with
  | nil =>
    intro best
    exact ⟨List.mem_cons_self best [], mrvLe_refl c doms best, by intro u hu; cases hu⟩
  | cons v vs ih =>
    intro best
    have hstep : pickMin (mrvLt c doms) best (v :: vs)
        = pickMin (mrvLt c doms) (bif mrvLt c doms v best then v else best) vs := rfl
    cases hlt : mrvLt c doms v best with
    | true =>
      rw [hstep, hlt, Bool.cond_true]
      obtain ⟨hmem, hbest, hall⟩ := ih v
      refine ⟨?_, mrvLe_trans hbest (mrvLe_of_lt hlt), ?_⟩
      · rcases List.mem_cons.mp hmem with h | h
        · rw [h]
          exact List.mem_cons_of_mem best (List.mem_cons_self v vs)
        · exact List.mem_cons_of_mem best (List.mem_cons_of_mem v h)
      · intro u hu
        rcases List.mem_cons.mp hu with rfl | hu
        · exact hbest
        · exact hall u hu
    | false =>
      rw [hstep, hlt, Bool.cond_false]
      obtain ⟨hmem, hbest, hall⟩ := ih best
      refine ⟨?_, hbest, ?_⟩
      · rcases List.mem_cons.mp hmem with h | h
        · rw [h]
          exact List.mem_cons_self best (v :: vs)
        · exact List.mem_cons_of_mem best (List.mem_cons_of_mem v h)
      · intro u hu
        rcases List.mem_cons.mp hu with rfl | hu
        · exact mrvLe_trans hbest (mrvLe_of_not_lt hlt)
        · exact hall u hu

/-- C8: on an assignment leaving at least one slot unassigned,
`select_unassigned_variable` returns an unassigned slot whose domain size
is minimal among the unassigned slots, and whose neighbor count is
maximal among the unassigned slots tied on that minimal domain size. -/
theorem select_unassigned_variable_mrv (c : Crossword) (doms : Doms)
    (a : Assign) (hne : unassignedList c a ≠ []) :
    ∃ v, select_unassigned_variable c doms a = some v ∧
      v ∈ unassignedList c a ∧ isAssigned a v = false ∧
      (∀ u ∈ unassignedList c a, (doms v).length ≤ (doms u).length) ∧
      (∀ u ∈ unassignedList c a, (doms u).length = (doms v).length →
        (neighbors c u).length ≤ (neighbors c v).length) := by
  rcases hl : unassignedList c a with _ | ⟨v0, vs⟩
  · exact absurd hl hne
  obtain ⟨hmem, hbest, hall⟩ := pickMin_spec c doms vs v0
  set v := pickMin (mrvLt c doms) v0 vs with hv
  have hvle : ∀ u ∈ v0 :: vs, mrvLe c doms v u := by
    intro u hu
    rcases List.mem_cons.mp hu with rfl | hu
    · exact hbest
    · exact hall u hu
  have hvin : v ∈ unassignedList c a := by rw [hl]; exact hmem
  refine ⟨v, ?_, hmem, ?_, ?_, ?_⟩
  · rw [select_unassigned_variable, hl]
  · have := List.mem_filter.mp hvin
    simpa using this.2
  · intro u hu
    rcases hvle u hu with h | ⟨h, -⟩
    · exact Nat.le_of_lt h
    · exact Nat.le_of_eq h
  · intro u hu heq
    rcases hvle u hu with h | ⟨-, h⟩
    · exact absurd heq (Nat.ne_of_gt h)
    · exact h

theorem select_unassigned_variable_mrv_witness :
    unassignedList cwSingle [] ≠ [] ∧
    ∃ v, select_unassigned_variable cwSingle (initialDoms cwSingle) [] = some v ∧
      v ∈ unassignedList cwSingle [] ∧ isAssigned ([] : Assign) v = false ∧
      (∀ u ∈ unassignedList cwSingle [],
        (initialDoms cwSingle v).length ≤ (initialDoms cwSingle u).length) ∧
      (∀ u ∈ unassignedList cwSingle [],
        (initialDoms cwSingle u).length = (initialDoms cwSingle v).length →
        (neighbors cwSingle u).length ≤ (neighbors cwSingle v).length) :=
  ⟨by decide,
    select_unassigned_variable_mrv cwSingle (initialDoms cwSingle) [] (by decide)⟩

theorem lookupA_eq_some {a : Assign} {v : Variable} {w : Word} :
    lookupA a v = some w → (v, w) ∈ a := by
  induction a with
  | nil => intro h; cases h
  | cons p t ih =>
    rcases p with ⟨v0, w0⟩
    intro h
    rw [lookupA] at h
    split at h
    next heq =>
      injection h with h
      subst heq; subst h
      exact List.mem_cons_self _ _
    next heq =>
      exact List.mem_cons_of_mem _ (ih h)

theorem lookupA_of_mem {a : Assign} (hnd : (a.map Prod.fst).Nodup)
    {v : Variable} {w : Word} (h : (v, w) ∈ a) : lookupA a v = some w := by
  induction a with
  | nil => cases h
  | cons p t ih =>
    rcases p with ⟨v0, w0⟩
    rw [List.map_cons, List.nodup_cons] at hnd
    rcases List.mem_cons.mp h with heq | ht
    · injection heq with he1 he2
      subst he1; subst he2
      rw [lookupA, if_pos rfl]
    · rw [lookupA]
      split
      next heq =>
        subst heq
        exact absurd (List.mem_map.mpr ⟨(v, w), ht, rfl⟩) hnd.1
      next heq =>
        exact ih hnd.2 ht

theorem two_mem_of_not_nodup : ∀ {a : Assign},
    (a.map Prod.fst).Nodup → ¬ (a.map Prod.snd).Nodup →
    ∃ v1 v2 w, v1 ≠ v2 ∧ (v1, w) ∈ a ∧ (v2, w) ∈ a := by
  intro a
  induction a with
  | nil => intro _ h; exact absurd List.nodup_nil h
  | cons p t ih =>
    intro hnd h
    rw [List.map_cons, List.nodup_cons] at hnd h
    rcases Classical.em (p.2 ∈ t.map Prod.snd) with hmem | hmem
    · obtain ⟨q, hq, hqw⟩ := List.mem_map.mp hmem
      refine ⟨p.1, q.1, p.2, ?_, ?_, ?_⟩
      · intro heq
        exact hnd.1 (List.mem_map.mpr ⟨q, hq, heq.symm⟩)
      · exact List.mem_cons_self p t
      · refine List.mem_cons_of_mem _ ?_
        rw [← hqw]
        exact hq
    · have ht : ¬ (t.map Prod.snd).Nodup := by
        intro hh
        exact h ⟨hmem, hh⟩
      obtain ⟨v1, v2, w, hne, hm1, hm2⟩ := ih hnd.2 ht
      exact ⟨v1, v2, w, hne, List.mem_cons_of_mem _ hm1,
        List.mem_cons_of_mem _ hm2⟩

theorem not_nodup_of_two_mem : ∀ {a : Assign} {v1 v2 : Variable} {w : Word},
    (v1, w) ∈ a → (v2, w) ∈ a → v1 ≠ v2 → ¬ (a.map Prod.snd).Nodup := by
  intro a
  induction a with
  | nil => intro v1 v2 w h1; cases h1
  | cons p t ih =>
    intro v1 v2 w h1 h2 hne hnd
    rw [List.map_cons, List.nodup_cons] at hnd
    rcases List.mem_cons.mp h1 with he1 | ht1 <;>
      rcases List.mem_cons.mp h2 with he2 | ht2
    · refine hne ?_
      rw [← he2] at he1
      exact congrArg Prod.fst he1
    · refine hnd.1 ?_
      rw [← he1]
      exact List.mem_map.mpr ⟨(v2, w), ht2, rfl⟩
    · refine hnd.1 ?_
      rw [← he2]
      exact List.mem_map.mpr ⟨(v1, w), ht1, rfl⟩
    · exact ih ht1 ht2 hne hnd.2

theorem dedup_length_iff {l : List Word} :
    l.dedup.length = l.length ↔ l.Nodup := by
  constructor
  · intro h
    have heq : l.dedup = l := List.Sublist.eq_of_length (List.dedup_sublist l) h
    rw [← heq]
    exact List.nodup_dedup l
  · intro h
    rw [List.dedup_eq_self.mpr h]

theorem overlapCheck_iff {c : Crossword} {a : Assign} {v nb : Variable}
    {w : Word} :
    (overlapCheck c a v w nb = true) ↔
      ∀ w2, lookupA a nb = some w2 → ∀ i j, c.overlaps v nb = some (i, j) →
        charAt w i = charAt w2 j := by
  unfold overlapCheck
  rcases h1 : lookupA a nb with _ | w2
  · simp
  · rcases h2 : c.overlaps v nb with _ | ⟨i, j⟩
    · simp
    · constructor
      · intro h w2' hw2 i' j' hij
        injection hw2 with hw2
        subst hw2
        injection hij with hij
        injection hij with hii hjj
        subst hii; subst hjj
        exact beq_iff_eq.mp h
      · intro h
        exact beq_iff_eq.mpr (h w2 rfl i j rfl)

theorem consistent_eq_true_iff (c : Crossword) (a : Assign) :
    consistent c a = true ↔
      (∀ p ∈ a, p.2.length = p.1.length) ∧
      (a.map Prod.snd).Nodup ∧
      (∀ p ∈ a, ∀ nb ∈ neighbors c p.1, ∀ w2, lookupA a nb = some w2 →
        ∀ i j, c.overlaps p.1 nb = some (i, j) →
          charAt p.2 i = charAt w2 j) := by
  unfold consistent
  simp only [Bool.and_eq_true, List.all_eq_true, beq_iff_eq,
    dedup_length_iff, overlapCheck_iff]
  constructor
  · rintro ⟨⟨h1, h2⟩, h3⟩
    exact ⟨h1, h2, h3⟩
  · rintro ⟨h1, h2, h3⟩
    exact ⟨⟨h1, h2⟩, h3⟩

/-- C5: the consistency check fails exactly when some assigned word has
the wrong length, or two distinct assigned slots carry the same word, or
two assigned neighboring slots disagree at their overlap; slots absent
from the assignment impose no constraint (they appear in none of the
three conditions). -/
theorem consistent_eq_false_iff (c : Crossword) (a : Assign)
    (hnd : (a.map Prod.fst).Nodup) :
    consistent c a = false ↔
      (∃ p ∈ a, p.2.length ≠ p.1.length) ∨
      (∃ v1 v2 w, v1 ≠ v2 ∧ (v1, w) ∈ a ∧ (v2, w) ∈ a) ∨
      (∃ v1 w1 v2 w2 i j, (v1, w1) ∈ a ∧ (v2, w2) ∈ a ∧
        v2 ∈ neighbors c v1 ∧ c.overlaps v1 v2 = some (i, j) ∧
        charAt w1 i ≠ charAt w2 j) := by
  rw [← Bool.not_eq_true, consistent_eq_true_iff]
  constructor
  · intro h
    by_cases h1 : ∀ p ∈ a, p.2.length = p.1.length
    · by_cases h2 : (a.map Prod.snd).Nodup
      · have h3 : ¬ (∀ p ∈ a, ∀ nb ∈ neighbors c p.1, ∀ w2,
            lookupA a nb = some w2 → ∀ i j, c.overlaps p.1 nb = some (i, j) →
              charAt p.2 i = charAt w2 j) := by
          intro h3
          exact h ⟨h1, h2, h3⟩
        push_neg at h3
        obtain ⟨p, hp, nb, hnb, w2, hl, i, j, ho, hne⟩ := h3
        refine Or.inr (Or.inr ⟨p.1, p.2, nb, w2, i, j, ?_, ?_, hnb, ho, hne⟩)
        · exact hp
        · exact lookupA_eq_some hl
      · obtain ⟨v1, v2, w, hne, hm1, hm2⟩ := two_mem_of_not_nodup hnd h2
        exact Or.inr (Or.inl ⟨v1, v2, w, hne, hm1, hm2⟩)
    · push_neg at h1
      obtain ⟨p, hp, hne⟩ := h1
      exact Or.inl ⟨p, hp, hne⟩
  · rintro (⟨p, hp, hne⟩ | ⟨v1, v2, w, hne, hm1, hm2⟩ |
      ⟨v1, w1, v2, w2, i, j, hm1, hm2, hnb, ho, hne⟩) ⟨h1, h2, h3⟩
    · exact hne (h1 p hp)
    · exact not_nodup_of_two_mem hm1 hm2 hne h2
    · exact hne (h3 (v1, w1) hm1 v2 hnb w2 (lookupA_of_mem hnd hm2) i j ho)

theorem consistent_eq_false_iff_witness :
    ((([(slotAcross1, "a".toList), (slotDown2, "cd".toList)] : Assign).map
      Prod.fst).Nodup) ∧
    (consistent cwFail [(slotAcross1, "a".toList), (slotDown2, "cd".toList)]
        = false ↔
      (∃ p ∈ ([(slotAcross1, "a".toList), (slotDown2, "cd".toList)] : Assign),
        p.2.length ≠ p.1.length) ∨
      (∃ v1 v2 w, v1 ≠ v2 ∧
        (v1, w) ∈ ([(slotAcross1, "a".toList), (slotDown2, "cd".toList)] : Assign) ∧
        (v2, w) ∈ ([(slotAcross1, "a".toList), (slotDown2, "cd".toList)] : Assign)) ∨
      (∃ v1 w1 v2 w2 i j,
        (v1, w1) ∈ ([(slotAcross1, "a".toList), (slotDown2, "cd".toList)] : Assign) ∧
        (v2, w2) ∈ ([(slotAcross1, "a".toList), (slotDown2, "cd".toList)] : Assign) ∧
        v2 ∈ neighbors cwFail v1 ∧ cwFail.overlaps v1 v2 = some (i, j) ∧
        charAt w1 i ≠ charAt w2 j)) :=
  ⟨by decide,
    consistent_eq_false_iff cwFail
      [(slotAcross1, "a".toList), (slotDown2, "cd".toList)] (by decide)⟩

/-- Arc consistency of `x` with respect to `y` in a given domain store:
every remaining candidate of `x` has a supporting candidate in `y`'s
domain at the overlap indices. -/
def arcConsistent (c : Crossword) (doms : Doms) (x y : Variable) : Prop :=
  ∀ i j, c.overlaps x y = some (i, j) → ∀ wx ∈ doms x,
    ∃ wy ∈ doms y, charAt wx i = charAt wy j

/-- Well-formedness of the Puzzle Model, from the spec: `overlap(x,y)` and
`overlap(y,x)` describe the same cell from each slot's own local index. -/
def SymOverlaps (c : Crossword) : Prop :=
  ∀ x y i j, c.overlaps x y = some (i, j) → c.overlaps y x = some (j, i)

theorem mem_neighbors_symm {c : Crossword} (hsym : SymOverlaps c)
    {a b : Variable} (ha : a ∈ c.vars) (hb : b ∈ neighbors c a) :
    a ∈ neighbors c b := by
  obtain ⟨hbv, hba, hbs⟩ := mem_neighbors.mp hb
  rcases ho : c.overlaps a b with _ | ⟨p, q⟩
  · rw [ho] at hbs
    cases hbs
  · refine mem_neighbors.mpr ⟨ha, Ne.symm hba, ?_⟩
    rw [hsym a b p q ho]
    rfl

/-- Invariant of the AC-3 loop: every neighbor pair is either still queued
or already arc-consistent. -/
def ac3Inv (c : Crossword) (doms : Doms)
    (queue : List (Variable × Variable)) : Prop :=
  ∀ x ∈ c.vars, ∀ y ∈ neighbors c x, (x, y) ∈ queue ∨ arcConsistent c doms x y

theorem ac3go_sound {c : Crossword} (hsym : SymOverlaps c) :
    ∀ (doms : Doms) (queue : List (Variable × Variable)) (dFin : Doms),
      ac3Inv c doms queue → ac3go c doms queue = (true, dFin) →
      ∀ x ∈ c.vars, ∀ y ∈ neighbors c x, arcConsistent c dFin x y := by
  intro doms queue
  induction doms, queue using ac3go.induct c with
  | case1 doms =>
    intro dFin hInv hrun x hx y hy
    rw [ac3go_nil] at hrun
    injection hrun with h1 h2
    subst h2
    rcases hInv x hx y hy with hq | hc
    · cases hq
    · exact hc
  | case2 doms x y rest d h ih =>
    intro dFin hInv hrun
    rw [ac3go_cons_false rest h] at hrun
    refine ih dFin ?_ hrun
    intro a ha b hb
    rcases hInv a ha b hb with hq | hc
    · rcases List.mem_cons.mp hq with heq | hq
      · injection heq with ha2 hb2
        subst ha2; subst hb2
        refine Or.inr ?_
        intro i j hov wx hwx
        exact support_iff.mp ((revise_false h).2 i j hov wx hwx)
      · exact Or.inl hq
    · exact Or.inr hc
  | case3 doms x y rest doms' h hlen =>
    intro dFin hInv hrun
    rw [ac3go_cons_empty rest h hlen] at hrun
    injection hrun with h1 h2
    exact Bool.noConfusion h1
  | case4 doms x y rest doms' h hlen ih =>
    intro dFin hInv hrun
    rw [ac3go_cons_requeue rest h hlen] at hrun
    refine ih dFin ?_ hrun
    obtain ⟨i, j, hov, hdEq, hflt⟩ := revise_true h
    have hdx : doms' x = (doms x).filter (support doms y i j) := by
      rw [hdEq]; exact updateDoms_same
    intro a ha b hb
    rcases hInv a ha b hb with hq | hc
    · rcases List.mem_cons.mp hq with heq | hq
      · injection heq with ha2 hb2
        subst ha2; subst hb2
        refine Or.inr ?_
        intro i' j' hov' wx hwx
        have hij : i' = i ∧ j' = j := by
          have := hov.symm.trans hov'
          injection this with hp
          injection hp with h1 h2
          exact ⟨h1.symm, h2.symm⟩
        obtain ⟨rfl, rfl⟩ := hij
        rw [hdx] at hwx
        obtain ⟨hwxd, hsupp⟩ := List.mem_filter.mp hwx
        obtain ⟨wy, hwy, heq⟩ := support_iff.mp hsupp
        have hyne : b ≠ a := (mem_neighbors.mp hb).2.1
        refine ⟨wy, ?_, heq⟩
        rw [hdEq, updateDoms_other hyne]
        exact hwy
      · exact Or.inl (List.mem_append_left _ hq)
    · by_cases hbx : b = x
      · by_cases hay : a = y
        · refine Or.inr ?_
          intro p q hovyx wy hwy
          have hyx : c.overlaps a b = some (j, i) := by
            rw [hay, hbx]
            exact hsym x y i j hov
          have hpq : p = j ∧ q = i := by
            have := hovyx.symm.trans hyx
            injection this with hp
            injection hp with h1 h2
            exact ⟨h1, h2⟩
          obtain ⟨rfl, rfl⟩ := hpq
          have haxne : a ≠ x :=
            fun hax => (mem_neighbors.mp hb).2.1 (hbx.trans hax.symm)
          have hwy' : wy ∈ doms a := by
            rw [hdEq, updateDoms_other haxne] at hwy
            exact hwy
          obtain ⟨wx, hwx, heq⟩ := hc p q hyx wy hwy'
          refine ⟨wx, ?_, heq⟩
          rw [hbx, hdx]
          rw [hbx] at hwx
          refine List.mem_filter.mpr ⟨hwx, ?_⟩
          refine support_iff.mpr ⟨wy, ?_, heq.symm⟩
          rw [hay] at hwy'
          exact hwy'
        · refine Or.inl (List.mem_append_right _ ?_)
          refine List.mem_map.mpr ⟨a, ?_, by rw [hbx]⟩
          refine List.mem_filter.mpr ⟨?_, by simpa using hay⟩
          rw [hbx] at hb
          exact mem_neighbors_symm hsym ha hb
      · refine Or.inr ?_
        intro i' j' hov' wx hwx
        have hwx' : wx ∈ doms a := revise_subset h a wx hwx
        obtain ⟨wy, hwy, heq⟩ := hc i' j' hov' wx hwx'
        refine ⟨wy, ?_, heq⟩
        rw [hdEq, updateDoms_other hbx]
        exact hwy

/-- C3: whenever `ac3` is called with `arcs is None` (queue seeded with
every arc of the constraint graph) on a puzzle with a symmetric overlap
relation and returns `True`, every word remaining in any slot's domain
has a supporting word in each neighbor's domain at the overlap
indices. -/
theorem ac3_all_arcs_sound (c : Crossword) (doms dFin : Doms)
    (hsym : SymOverlaps c)
    (hrun : ac3 c doms none = (true, dFin)) :
    ∀ x ∈ c.vars, ∀ y ∈ neighbors c x, ∀ i j,
      c.overlaps x y = some (i, j) → ∀ wx ∈ dFin x,
        ∃ wy ∈ dFin y, charAt wx i = charAt wy j := by
  have hInv : ac3Inv c doms (allArcs c) := by
    intro x hx y hy
    exact Or.inl (List.mem_flatMap.mpr ⟨x, hx, List.mem_map.mpr ⟨y, hy, rfl⟩⟩)
  have hmain := ac3go_sound hsym doms (allArcs c) dFin hInv hrun
  intro x hx y hy i j hov wx hwx
  exact hmain x hx y hy i j hov wx hwx

/-- A down slot of length 3 crossing `slotAcross3` at both slots' first
letters. -/
def slotDown3 : Variable := ⟨0, 0, Direction.down, 3⟩

/-- Two crossing slots of length 3 overlapping at their first letters,
with dictionary {cat, car, art}: every word is supported, so AC-3 keeps
all domains and succeeds. -/
def cwCross : Crossword :=
  ⟨[slotAcross3, slotDown3], ["cat".toList, "car".toList, "art".toList],
    fun u v =>
      if (u = slotAcross3 ∧ v = slotDown3) ∨ (u = slotDown3 ∧ v = slotAcross3)
      then some (0, 0) else none⟩

theorem symOverlaps_cwCross : SymOverlaps cwCross := by
  intro x y i j h
  by_cases hc : (x = slotAcross3 ∧ y = slotDown3) ∨
      (x = slotDown3 ∧ y = slotAcross3)
  · have hov : cwCross.overlaps x y = some (0, 0) := if_pos hc
    have h' := hov.symm.trans h
    injection h' with hp
    injection hp with hi hj
    have hc' : (y = slotAcross3 ∧ x = slotDown3) ∨
        (y = slotDown3 ∧ x = slotAcross3) := by
      rcases hc with ⟨h1, h2⟩ | ⟨h1, h2⟩
      · exact Or.inr ⟨h2, h1⟩
      · exact Or.inl ⟨h2, h1⟩
    have hov' : cwCross.overlaps y x = some (0, 0) := if_pos hc'
    rw [hov', ← hi, ← hj]
  · have hov : cwCross.overlaps x y = none := if_neg hc
    rw [hov] at h
    cases h

theorem ac3_all_arcs_sound_witness :
    SymOverlaps cwCross ∧
    ac3 cwCross (initialDoms cwCross) none = (true, initialDoms cwCross) ∧
    (∀ x ∈ cwCross.vars, ∀ y ∈ neighbors cwCross x, ∀ i j,
      cwCross.overlaps x y = some (i, j) → ∀ wx ∈ initialDoms cwCross x,
        ∃ wy ∈ initialDoms cwCross y, charAt wx i = charAt wy j) := by
  have hrun : ac3 cwCross (initialDoms cwCross) none
      = (true, initialDoms cwCross) := by
    show ac3go cwCross (initialDoms cwCross) (allArcs cwCross) = _
    have hq : allArcs cwCross
        = [(slotAcross3, slotDown3), (slotDown3, slotAcross3)] := by decide
    rw [hq]
    have h1 : revise cwCross (initialDoms cwCross) slotAcross3 slotDown3
        = (false, initialDoms cwCross) := rfl
    rw [ac3go_cons_false _ h1]
    have h2 : revise cwCross (initialDoms cwCross) slotDown3 slotAcross3
        = (false, initialDoms cwCross) := rfl
    rw [ac3go_cons_false _ h2]
    rw [ac3go_nil]
  exact ⟨symOverlaps_cwCross, hrun,
    ac3_all_arcs_sound cwCross (initialDoms cwCross) (initialDoms cwCross)
      symOverlaps_cwCross hrun⟩

theorem lookupA_eq_none_iff {a : Assign} {v : Variable} :
    lookupA a v = none ↔ v ∉ a.map Prod.fst := by
  induction a with
  | nil => simp [lookupA]
  | cons p t ih =>
    rcases p with ⟨v0, w0⟩
    rw [lookupA]
    by_cases hv : v = v0
    · subst hv
      simp
    · rw [if_neg hv, List.map_cons, List.mem_cons, ih]
      constructor
      · intro h hmem
        rcases hmem with hmem | hmem
        · exact hv hmem
        · exact h hmem
      · intro h hmem
        exact h (Or.inr hmem)

theorem isAssigned_false_iff {a : Assign} {v : Variable} :
    isAssigned a v = false ↔ v ∉ a.map Prod.fst := by
  rw [← lookupA_eq_none_iff, isAssigned]
  cases lookupA a v <;> simp

theorem lookupA_append_none {a : Assign} {var v : Variable} {w : Word}
    (ha : lookupA a v = none) (hne : v ≠ var) :
    lookupA (a ++ [(var, w)]) v = none := by
  induction a with
  | nil => simp [lookupA, if_neg hne]
  | cons p t ih =>
    rcases p with ⟨v0, w0⟩
    rw [lookupA] at ha
    rw [List.cons_append, lookupA]
    split at ha
    · cases ha
    next hne0 =>
      rw [if_neg hne0]
      exact ih ha

theorem mem_unassigned_iff {c : Crossword} {a : Assign} {v : Variable} :
    v ∈ unassignedList c a ↔ v ∈ c.vars ∧ isAssigned a v = false := by
  simp [unassignedList]

theorem select_mem_unassigned {c : Crossword} {doms : Doms} {a : Assign}
    {var : Variable} (h : select_unassigned_variable c doms a = some var) :
    var ∈ unassignedList c a := by
  rw [select_unassigned_variable] at h
  rcases hl : unassignedList c a with _ | ⟨v0, vs⟩ <;> rw [hl] at h
  · cases h
  · injection h with h
    rw [← h]
    exact (pickMin_spec c doms vs v0).1

/-- Invariant carried through the backtracking recursion: the assignment
passes the consistency check, its keys are duplicate-free, and all keys
are slots of the puzzle. -/
def btInv (c : Crossword) (a : Assign) : Prop :=
  consistent c a = true ∧ (a.map Prod.fst).Nodup ∧
    ∀ v ∈ a.map Prod.fst, v ∈ c.vars

theorem keys_complete {c : Crossword} {a : Assign}
    (hk : (a.map Prod.fst).Nodup) (hsub : ∀ v ∈ a.map Prod.fst, v ∈ c.vars)
    (hlen : a.length = c.vars.length) : ∀ v ∈ c.vars, v ∈ a.map Prod.fst := by
  have hsp : List.Subperm (a.map Prod.fst) c.vars := hk.subperm hsub
  have hperm : List.Perm (a.map Prod.fst) c.vars := by
    refine hsp.perm_of_length_le ?_
    rw [List.length_map, hlen]
  intro v hv
  exact hperm.mem_iff.mpr hv

theorem backtrackFuel_sound {c : Crossword} {doms : Doms} :
    ∀ (fuel : Nat) (a r : Assign), btInv c a →
      backtrackFuel c doms fuel a = some r →
      btInv c r ∧ assignment_complete c r = true := by
  intro fuel
  induction fuel with
  | zero => intro a r _ h; cases h
  | succ n ih =>
    intro a r hInv hrun
    rw [backtrackFuel] at hrun
    split at hrun
    case isTrue hcomp =>
      injection hrun with hr
      rw [← hr]
      exact ⟨hInv, hcomp⟩
    case isFalse =>
      rcases hsel : select_unassigned_variable c doms a with _ | var <;>
        rw [hsel] at hrun
      · cases hrun
      · obtain ⟨val, hval, hf⟩ := List.exists_of_findSome?_eq_some hrun
        dsimp only at hf
        split at hf
        case isTrue hcons =>
          refine ih (a ++ [(var, val)]) r ⟨hcons, ?_, ?_⟩ hf
          · obtain ⟨hvv, hva⟩ := mem_unassigned_iff.mp (select_mem_unassigned hsel)
            rw [List.map_append, List.nodup_append]
            refine ⟨hInv.2.1, List.nodup_singleton _, ?_⟩
            intro u hu hmem
            have : u = var := by simpa using hmem
            rw [this] at hu
            exact isAssigned_false_iff.mp hva hu
          · intro v hv
            rw [List.map_append] at hv
            rcases List.mem_append.mp hv with hv | hv
            · exact hInv.2.2 v hv
            · have : v = var := by simpa using hv
              rw [this]
              exact (mem_unassigned_iff.mp (select_mem_unassigned hsel)).1
        case isFalse => cases hf

theorem consistent_nil (c : Crossword) : consistent c [] = true := rfl

/-- C1: every non-`Unsatisfiable` result of `solve` is a complete
assignment (duplicate-free keys covering every slot), its words are
pairwise distinct, every word's length equals its slot's length, and
assigned neighboring slots agree at their overlap indices. -/
theorem solve_sound (c : Crossword) (r : Assign)
    (h : solve c = some r) :
    ((r.map Prod.fst).Nodup ∧ ∀ v ∈ c.vars, v ∈ r.map Prod.fst) ∧
    (r.map Prod.snd).Nodup ∧
    (∀ p ∈ r, p.2.length = p.1.length) ∧
    (∀ v1 w1 v2 w2 i j, (v1, w1) ∈ r → (v2, w2) ∈ r →
      v2 ∈ neighbors c v1 → c.overlaps v1 v2 = some (i, j) →
      charAt w1 i = charAt w2 j) := by
  have hbt : backtrackFuel c
      (ac3 c (enforce_node_consistency c (initialDoms c)) none).2
      (c.vars.length + 1) [] = some r := h
  have hInv0 : btInv c [] :=
    ⟨consistent_nil c, List.nodup_nil, fun v hv => absurd hv (List.not_mem_nil v)⟩
  obtain ⟨⟨hcons, hknd, hksub⟩, hcomp⟩ :=
    backtrackFuel_sound (c.vars.length + 1) [] r hInv0 hbt
  obtain ⟨h1, h2, h3⟩ := (consistent_eq_true_iff c r).mp hcons
  have hlen : r.length = c.vars.length := by
    simpa [assignment_complete] using hcomp
  refine ⟨⟨hknd, keys_complete hknd hksub hlen⟩, h2, h1, ?_⟩
  intro v1 w1 v2 w2 i j hm1 hm2 hnb hov
  exact h3 (v1, w1) hm1 v2 hnb w2 (lookupA_of_mem hknd hm2) i j hov

/-- The assignment `solve` produces on the one-slot puzzle `cwSingle`. -/
def solveSingleResult : Assign := [(slotAcross3, "cat".toList)]

theorem solve_cwSingle_eq : solve cwSingle = some solveSingleResult := by
  show backtrack cwSingle
    (ac3 cwSingle (enforce_node_consistency cwSingle (initialDoms cwSingle))
      none).2 [] = _
  have hac3 : ac3 cwSingle
      (enforce_node_consistency cwSingle (initialDoms cwSingle)) none
      = (true, enforce_node_consistency cwSingle (initialDoms cwSingle)) := by
    show ac3go cwSingle _ (allArcs cwSingle) = _
    have hq : allArcs cwSingle = [] := by decide
    rw [hq, ac3go_nil]
  rw [hac3]
  decide

theorem solve_sound_witness :
    solve cwSingle = some solveSingleResult ∧
    (((solveSingleResult.map Prod.fst).Nodup ∧
      ∀ v ∈ cwSingle.vars, v ∈ solveSingleResult.map Prod.fst) ∧
    (solveSingleResult.map Prod.snd).Nodup ∧
    (∀ p ∈ solveSingleResult, p.2.length = p.1.length) ∧
    (∀ v1 w1 v2 w2 i j, (v1, w1) ∈ solveSingleResult →
      (v2, w2) ∈ solveSingleResult → v2 ∈ neighbors cwSingle v1 →
      cwSingle.overlaps v1 v2 = some (i, j) →
      charAt w1 i = charAt w2 j)) :=
  ⟨solve_cwSingle_eq,
    solve_sound cwSingle solveSingleResult solve_cwSingle_eq⟩

theorem ac3go_false_empty {c : Crossword} :
    ∀ (doms : Doms) (queue : List (Variable × Variable)) (d2 : Doms),
      (∀ p ∈ queue, p.1 ∈ c.vars) → ac3go c doms queue = (false, d2) →
      ∃ v ∈ c.vars, d2 v = [] := by
  intro doms queue
  induction doms, queue using ac3go.induct c with
  | case1 doms =>
    intro d2 _ hrun
    rw [ac3go_nil] at hrun
    injection hrun with h1 _
    exact Bool.noConfusion h1
  | case2 doms x y rest d h ih =>
    intro d2 hq hrun
    rw [ac3go_cons_false rest h] at hrun
    exact ih d2 (fun p hp => hq p (List.mem_cons_of_mem _ hp)) hrun
  | case3 doms x y rest doms' h hlen =>
    intro d2 hq hrun
    rw [ac3go_cons_empty rest h hlen] at hrun
    injection hrun with _ h2
    subst h2
    exact ⟨x, hq (x, y) (List.mem_cons_self _ _), List.length_eq_zero.mp hlen⟩
  | case4 doms x y rest doms' h hlen ih =>
    intro d2 hq hrun
    rw [ac3go_cons_requeue rest h hlen] at hrun
    refine ih d2 ?_ hrun
    intro p hp
    rcases List.mem_append.mp hp with hp | hp
    · exact hq p (List.mem_cons_of_mem _ hp)
    · obtain ⟨z, hz, rfl⟩ := List.mem_map.mp hp
      exact (mem_neighbors.mp (List.mem_filter.mp hz).1).1

theorem allArcs_fst_mem {c : Crossword} :
    ∀ p ∈ allArcs c, p.1 ∈ c.vars := by
  intro p hp
  obtain ⟨x, hx, hmem⟩ := List.mem_flatMap.mp hp
  obtain ⟨y, _, rfl⟩ := List.mem_map.mp hmem
  exact hx

theorem backtrackFuel_none_of_empty {c : Crossword} {doms : Doms}
    {v : Variable} (hv : v ∈ c.vars)
    (hdv : doms v = []) :
    ∀ (fuel : Nat) (a : Assign), isAssigned a v = false →
      (a.map Prod.fst).Nodup → (∀ u ∈ a.map Prod.fst, u ∈ c.vars) →
      backtrackFuel c doms fuel a = none := by
  intro fuel
  induction fuel with
  | zero => intro a _ _ _; rw [backtrackFuel]
  | succ n ih =>
    intro a hva hknd hksub
    rw [backtrackFuel]
    split
    case isTrue hcomp =>
      exfalso
      have hlen : a.length = c.vars.length := by
        simpa [assignment_complete] using hcomp
      have hvk : v ∈ a.map Prod.fst :=
        keys_complete hknd hksub hlen v hv
      exact isAssigned_false_iff.mp hva hvk
    case isFalse =>
      rcases hsel : select_unassigned_variable c doms a with _ | var
      · rfl
      · show ((order_domain_values c doms a var).findSome? _) = none
        by_cases hvv : var = v
        · have hord : order_domain_values c doms a var = [] := by
            rw [order_domain_values, hvv, hdv]
            rfl
          rw [hord, List.findSome?_nil]
        · rw [List.findSome?_eq_none_iff]
          intro val hval
          dsimp only
          split
          next hcons =>
            obtain ⟨hvarv, hvara⟩ :=
              mem_unassigned_iff.mp (select_mem_unassigned hsel)
            refine ih (a ++ [(var, val)]) ?_ ?_ ?_
            · rw [isAssigned]
              rw [lookupA_append_none ?_ (fun h => hvv h.symm)]
              · rfl
              · rw [isAssigned] at hva
                cases hl : lookupA a v with
                | none => rfl
                | some u => rw [hl] at hva; cases hva
            · rw [List.map_append, List.nodup_append]
              refine ⟨hknd, List.nodup_singleton _, ?_⟩
              intro u hu hmem
              have : u = var := by simpa using hmem
              rw [this] at hu
              exact isAssigned_false_iff.mp hvara hu
            · intro u hu
              rw [List.map_append] at hu
              rcases List.mem_append.mp hu with hu | hu
              · exact hksub u hu
              · have : u = var := by simpa using hu
                rw [this]
                exact hvarv
          next => rfl

/-- C2, amended: `solve` runs node consistency, then AC-3 over all arcs,
but discards the AC-3 result and always invokes the backtracking search
on the empty assignment; when AC-3 reported failure some slot's domain is
empty, so the search cannot complete an assignment and `solve` still
returns Unsatisfiable. -/
theorem solve_unsat_when_ac3_fails (c : Crossword)
    (hfail : (ac3 c (enforce_node_consistency c (initialDoms c)) none).1
      = false) :
    solve c = none ∧ (solveTrace c).1 = none ∧ (solveTrace c).2 = true := by
  rcases hrun : ac3 c (enforce_node_consistency c (initialDoms c)) none
    with ⟨b, d2⟩
  have hb : b = false := by rw [hrun] at hfail; exact hfail
  subst hb
  obtain ⟨v, hv, hdv⟩ :=
    ac3go_false_empty (enforce_node_consistency c (initialDoms c))
      (allArcs c) d2 allArcs_fst_mem hrun
  have hnone : solve c = none := by
    show backtrackFuel c
      (ac3 c (enforce_node_consistency c (initialDoms c)) none).2
      (c.vars.length + 1) [] = none
    rw [hrun]
    exact backtrackFuel_none_of_empty hv hdv _ [] rfl List.nodup_nil
      (fun u hu => absurd hu (List.not_mem_nil u))
  exact ⟨hnone, hnone, rfl⟩

theorem solve_unsat_when_ac3_fails_witness :
    (ac3 cwFail (enforce_node_consistency cwFail (initialDoms cwFail))
      none).1 = false ∧
    solve cwFail = none ∧ (solveTrace cwFail).1 = none ∧
      (solveTrace cwFail).2 = true := by
  have hfail : (ac3 cwFail
      (enforce_node_consistency cwFail (initialDoms cwFail)) none).1
      = false := by
    show (ac3go cwFail domsFailEx (allArcs cwFail)).1 = false
    have hq : allArcs cwFail
        = [(slotAcross1, slotDown2), (slotDown2, slotAcross1)] := by decide
    rw [hq]
    have h1 : revise cwFail domsFailEx slotAcross1 slotDown2
        = (true, reviseFailD) := Prod.ext (by decide) rfl
    have h2 : (reviseFailD slotAcross1).length = 0 := by decide
    rw [ac3go_cons_empty _ h1 h2]
  exact ⟨hfail, solve_unsat_when_ac3_fails cwFail hfail⟩

/-- Counterexample to C2 as stated: on `cwFail` the AC-3 pass reports
failure, yet `solve` still reaches the backtracking call — the source
discards `self.ac3()`'s return value and calls `self.backtrack(dict())`
unconditionally, so the search is not skipped. -/
theorem solve_skips_backtrack_counterexample :
    (ac3 cwFail (enforce_node_consistency cwFail (initialDoms cwFail))
      none).1 = false ∧
    (solveTrace cwFail).2 = true := by
  constructor
  · show (ac3go cwFail domsFailEx (allArcs cwFail)).1 = false
    have hq : allArcs cwFail
        = [(slotAcross1, slotDown2), (slotDown2, slotAcross1)] := by decide
    rw [hq]
    have h1 : revise cwFail domsFailEx slotAcross1 slotDown2
        = (true, reviseFailD) := Prod.ext (by decide) rfl
    have h2 : (reviseFailD slotAcross1).length = 0 := by decide
    rw [ac3go_cons_empty _ h1 h2]
  · rfl

/-- C9, amended: `solve` is a pure function of the Puzzle Model — two
models agreeing on the slot list, the dictionary list (including its
iteration order) and the overlap relation yield identical results, so
repeated calls with the same inputs return the same assignment.  The
result does, however, depend on the iteration order of the dictionary,
which breaks ties of the LCV and MRV heuristics (see the
counterexample). -/
theorem solve_deterministic (c1 c2 : Crossword) (hv : c1.vars = c2.vars)
    (hw : c1.words = c2.words) (ho : c1.overlaps = c2.overlaps) :
    solve c1 = solve c2 := by
  cases c1
  cases c2
  simp only at hv hw ho
  subst hv; subst hw; subst ho
  rfl

theorem solve_deterministic_witness :
    cwSingle.vars = cwSingle.vars ∧ cwSingle.words = cwSingle.words ∧
    cwSingle.overlaps = cwSingle.overlaps ∧ solve cwSingle = solve cwSingle :=
  ⟨rfl, rfl, rfl, solve_deterministic cwSingle cwSingle rfl rfl rfl⟩

theorem solve_cwSingleSwap_eq :
    solve cwSingleSwap = some [(slotAcross3, "dog".toList)] := by
  show backtrack cwSingleSwap
    (ac3 cwSingleSwap
      (enforce_node_consistency cwSingleSwap (initialDoms cwSingleSwap))
      none).2 [] = _
  have hac3 : ac3 cwSingleSwap
      (enforce_node_consistency cwSingleSwap (initialDoms cwSingleSwap)) none
      = (true,
        enforce_node_consistency cwSingleSwap (initialDoms cwSingleSwap)) := by
    show ac3go cwSingleSwap _ (allArcs cwSingleSwap) = _
    have hq : allArcs cwSingleSwap = [] := by decide
    rw [hq, ac3go_nil]
  rw [hac3]
  decide

/-- Counterexample to C9 as stated: `cwSingle` and `cwSingleSwap` carry
the same slot list, the same overlap relation and the same dictionary as
a set (the word lists are permutations of one another, differing only in
the incidental iteration order), yet `solve` returns `cat` on one and
`dog` on the other: heuristic tie-breaking depends on set iteration
order. -/
theorem solve_order_dependent_counterexample :
    cwSingle.vars = cwSingleSwap.vars ∧
    List.Perm cwSingle.words cwSingleSwap.words ∧
    cwSingle.overlaps = cwSingleSwap.overlaps ∧
    solve cwSingle ≠ solve cwSingleSwap := by
  refine ⟨rfl, by decide, rfl, ?_⟩
  rw [solve_cwSingle_eq, solve_cwSingleSwap_eq]
  intro h
  injection h with h
  cases h

theorem lookupA_append {a : Assign} {var v : Variable} {w : Word} :
    lookupA (a ++ [(var, w)]) v
      = match lookupA a v with
        | some u => some u
        | none => if v = var then some w else none := by
  induction a with
  | nil =>
    rw [List.nil_append]
    show (if v = var then some w else lookupA [] v) = _
    rw [lookupA]
  | cons p t ih =>
    rcases p with ⟨v0, w0⟩
    rw [List.cons_append, lookupA, lookupA]
    by_cases hv : v = v0
    · rw [if_pos hv, if_pos hv]
    · rw [if_neg hv, if_neg hv, ih]

theorem isAssigned_append {a : Assign} {var v : Variable} {w : Word} :
    isAssigned (a ++ [(var, w)]) v
      = (isAssigned a v || decide (v = var)) := by
  rw [isAssigned, isAssigned, lookupA_append]
  cases hl : lookupA a v
  · by_cases hv : v = var <;> simp [hv]
  · simp

theorem length_filter_lt {l : List α} {p : α → Bool} {x : α}
    (hx : x ∈ l) (hpx : p x = false) :
    (l.filter p).length < l.length := by
  induction l with
  | nil => cases hx
  | cons a t ih =>
    rcases List.mem_cons.mp hx with rfl | hx
    · rw [List.filter_cons, hpx]
      simp only [List.length_cons]
      exact Nat.lt_succ_of_le (List.length_filter_le p t)
    · rw [List.filter_cons]
      split
      · simp only [List.length_cons]
        exact Nat.succ_lt_succ (ih hx)
      · exact Nat.lt_succ_of_lt (ih hx)

theorem unassigned_append_length {c : Crossword} {a : Assign}
    {var : Variable} {w : Word} (hvar : var ∈ unassignedList c a) :
    (unassignedList c (a ++ [(var, w)])).length
      < (unassignedList c a).length := by
  have heq : unassignedList c (a ++ [(var, w)])
      = (unassignedList c a).filter (fun v => !(decide (v = var))) := by
    rw [unassignedList, unassignedList, List.filter_filter]
    apply List.filter_congr
    intro v _
    rw [isAssigned_append]
    cases isAssigned a v <;> by_cases hv : v = var <;> simp [hv]
  rw [heq]
  exact length_filter_lt hvar (by simp)

theorem findSome?_congr {f g : α → Option β} :
    ∀ (l : List α), (∀ x ∈ l, f x = g x) →
      l.findSome? f = l.findSome? g
  | [], _ => rfl
  | a :: t, h => by
    rw [List.findSome?_cons, List.findSome?_cons,
      h a (List.mem_cons_self a t)]
    cases g a
    · exact findSome?_congr t fun x hx => h x (List.mem_cons_of_mem a hx)
    · rfl

/-- Fuel-irrelevance of the backtracking search: any two fuels above the
number of unassigned slots compute the same result, so `backtrack`'s
choice of `len(variables) + 1` faithfully renders the source's unbounded
recursion, whose depth is bounded by the number of unassigned slots. -/
theorem backtrackFuel_fuel_irrelevant {c : Crossword} {doms : Doms} :
    ∀ (f g : Nat) (a : Assign), (unassignedList c a).length < f →
      (unassignedList c a).length < g →
      backtrackFuel c doms f a = backtrackFuel c doms g a := by
  intro f
  induction f with
  | zero => intro g a hf _; exact absurd hf (Nat.not_lt_zero _)
  | succ n ih =>
    intro g a hf hg
    rcases g with _ | m
    · exact absurd hg (Nat.not_lt_zero _)
    rw [backtrackFuel, backtrackFuel]
    split
    · rfl
    · rcases hsel : select_unassigned_variable c doms a with _ | var
      · rfl
      · apply findSome?_congr
        intro val _
        dsimp only
        split
        next hcons =>
          have hvar := select_mem_unassigned hsel
          have hlt := unassigned_append_length (w := val) hvar
          exact ih m (a ++ [(var, val)]) (by omega) (by omega)
        next => rfl

theorem backtrackFuel_eq_backtrack {c : Crossword} {doms : Doms}
    {a : Assign} {f : Nat} (hf : (unassignedList c a).length < f) :
    backtrackFuel c doms f a = backtrack c doms a := by
  apply backtrackFuel_fuel_irrelevant f (c.vars.length + 1) a hf
  have hle : (unassignedList c a).length ≤ c.vars.length :=
    List.length_filter_le _ _
  omega

end CrosswordCSP
